import Mathlib

/-!
Verification of the request-routing and dispatch layer of Traffic Ops
(`traffic_ops/traffic_ops_golang/routing/routing.go`).

The Go source is shallowly embedded:

* `float64` route versions are modeled as exact rationals (`ℚ`); all API
  versions are short decimal literals such as `1.2`, for which the
  rational model and the float model agree on ordering, truncation and
  on `strconv.FormatFloat(v, 'f', -1, 64)` rendering.
* HTTP handlers (`http.HandlerFunc`) are modeled as a symbolic expression
  tree `HExp`; middlewares (`func(http.HandlerFunc) http.HandlerFunc`)
  as symbolic constructors `MExp` applied via `HExp.wrap`.  The
  middleware constructors themselves (`getWrapAccessLog`,
  `timeOutWrapper`, `wrapHeaders`, `wrapPanicRecover`,
  `AuthBase.GetWrapper`) live in middleware source files outside the
  excerpt; the routing layer treats them as opaque values, so modeling
  them as opaque symbols is faithful.
* Go strings are modeled as `List Char` (route paths are ASCII).
* Go maps keyed by method with per-key append are modeled as ordered
  association lists; only the per-method subsequence order is observable
  by the dispatch loop, and that order is preserved by both models.
-/

set_option allowUnsafeReducibility true
attribute [local semireducible] Rat.mul Rat.inv Rat.sub Rat.add Rat.div

namespace TrafficRouting

/-- Middleware constructors visible to the routing layer.  In the Go
source a `Middleware` is `func(http.HandlerFunc) http.HandlerFunc`; the
routing code only builds lists of them and applies them, so each
constructor is modeled as an opaque symbol.  `custom` stands for an
arbitrary per-route middleware supplied in `Route.Middlewares`. -/
inductive MExp where
  | wrapAccessLogM (secret : String)
  | timeOutWrapper (requestTimeoutSeconds : Int)
  | wrapHeaders
  | wrapPanicRecover
  | authWrapper (privLevel : Int)
  | custom (tag : Nat)
deriving DecidableEq

/-- Handler expressions.  `base tag` is an opaque route handler,
`notImplemented` is `NotImplementedHandler()`, `disabledRoute` is
`DisabledRouteHandler()`, and `wrap m h` is the handler obtained by
applying middleware `m` to handler `h`. -/
inductive HExp where
  | base (tag : Nat)
  | notImplemented
  | disabledRoute
  | wrap (m : MExp) (h : HExp)
deriving DecidableEq

/-- Modelled from the spec: `NotImplementedHandler()` (defined in a
middleware file outside the excerpt) produces the fixed structured
"not implemented / unknown version" response handler. -/
def NotImplementedHandler : HExp := .notImplemented

/-- Modelled from the spec: `DisabledRouteHandler()` (defined outside the
excerpt) produces the fixed "disabled route" not-implemented response
handler. -/
def DisabledRouteHandler : HExp := .disabledRoute

/-- Modelled from the spec: `wrapAccessLog(secret, h)` (defined outside
the excerpt) wraps handler `h` in access logging keyed by `secret`. -/
def wrapAccessLog (secret : String) (h : HExp) : HExp :=
  .wrap (.wrapAccessLogM secret) h

/-- Modelled from the spec: `getWrapAccessLog(secret)` is the access-log
middleware as a `Middleware` value. -/
def getWrapAccessLog (secret : String) : MExp := .wrapAccessLogM secret

/-- AuthBase carries the primary secret; `override` is unused by the
excerpted routing code. -/
structure AuthBase where
  secret : String
deriving DecidableEq

/-- Modelled from the spec: `AuthBase.GetWrapper(privLevel)` (defined
outside the excerpt) returns an authorization middleware parameterized
by the required privilege level. -/
def AuthBase.GetWrapper (_a : AuthBase) (privLevel : Int) : MExp :=
  .authWrapper privLevel

/-- Embedding of `getDefaultMiddleware` (routing.go line 76): the default
chain is access logging, request timeout, standard headers, panic
recovery, in that order. -/
def getDefaultMiddleware (secret : String) (requestTimeout : Int) : List MExp :=
  [getWrapAccessLog secret, .timeOutWrapper requestTimeout, .wrapHeaders, .wrapPanicRecover]

/-- Embedding of the `Route` struct (routing.go line 48).  `Middlewares`
is an `Option` because Go distinguishes a nil slice (use the default
chain) from a non-nil explicit list. -/
structure Route where
  Version : ℚ
  Method : String
  Path : List Char
  Handler : HExp
  RequiredPrivLevel : Int
  Authenticated : Bool
  Middlewares : Option (List MExp)
  ID : Int
  CanBypassToPerl : Bool
deriving DecidableEq

/-- Embedding of the `RawRoute` struct (routing.go line 66): an
unversioned route served at its literal path. -/
structure RawRoute where
  Method : String
  Path : List Char
  Handler : HExp
  RequiredPrivLevel : Int
  Authenticated : Bool
  Middlewares : Option (List MExp)
deriving DecidableEq

/-- Embedding of the `PathHandler` struct (routing.go line 109). -/
structure PathHandler where
  Path : List Char
  Handler : HExp
deriving DecidableEq

/-- Embedding of `getRouteMiddleware` (routing.go line 163): a nil
per-route list is replaced by the default chain; then, when the route is
authenticated, the authorization wrapper for the route's privilege level
is appended. -/
def getRouteMiddleware (middlewares : Option (List MExp)) (authBase : AuthBase)
    (authenticated : Bool) (privLevel : Int) (requestTimeout : Int) : List MExp :=
  let ms := match middlewares with
    | none => getDefaultMiddleware authBase.secret requestTimeout
    | some ms => ms
  if authenticated then ms ++ [authBase.GetWrapper privLevel] else ms

/-- Embedding of `use` (routing.go line 306): the Go loop applies the
middlewares in reverse index order, so the first-listed middleware
becomes the outermost wrapper. -/
def use (h : HExp) (middlewares : List MExp) : HExp :=
  middlewares.reverse.foldl (fun acc m => .wrap m acc) h

/-- Events of the instrumentation semantics for wrapped handlers: a
middleware's pre-logic runs at `enter`, its post-logic at `leave`, and
the innermost handler runs at `exec`. -/
inductive TraceEv where
  | enter (m : MExp)
  | leave (m : MExp)
  | exec (h : HExp)
deriving DecidableEq

/-- Instrumentation semantics of a wrapped handler: a `wrap m h` node
runs `m`'s pre-logic, then the inner handler, then `m`'s post-logic.
This interprets the Go `Middleware` contract (a wrapper returning a new
handler that surrounds the inner one). -/
def runTrace : HExp → List TraceEv
  | .wrap m h => .enter m :: (runTrace h ++ [.leave m])
  | h => [.exec h]

/-- Go conversion `int(x)` on a float truncates toward zero; on the
rational model this is floor for nonnegative arguments and ceiling for
negative ones.  `Rat.floor`/`Rat.ceil` are used rather than `⌊⌋`/`⌈⌉` so
that the definition evaluates by kernel reduction; they agree with the
Mathlib operators. -/
def goInt (q : ℚ) : ℤ := if 0 ≤ q then Rat.floor q else Rat.ceil q

/-- Decimal digits of a natural number, most significant first,
accumulator style with structural fuel (`n + 1` steps always suffice). -/
def natDigitsAux : Nat → Nat → List Char → List Char
  | 0, _, acc => acc
  | fuel + 1, n, acc =>
    let acc := Nat.digitChar (n % 10) :: acc
    if n / 10 = 0 then acc else natDigitsAux fuel (n / 10) acc

/-- Decimal digits of a natural number, most significant first. -/
def natDigits (n : Nat) : List Char := natDigitsAux (n + 1) n []

/-- Decimal digits of a fractional part `0 ≤ q < 1`, with fuel bounding
the number of emitted digits.  Every version value in the route table is
a short decimal, so the fuel is never exhausted in practice. -/
def fracDigits : Nat → ℚ → List Char
  | 0, _ => []
  | fuel + 1, q =>
    if q = 0 then []
    else
      let q10 := q * 10
      let d := Rat.floor q10
      Nat.digitChar d.toNat :: fracDigits fuel (q10 - d)

/-- Formatting of a nonnegative version: integer digits, and the
fractional digits after a dot only when the fractional part is nonzero. -/
def formatFloatPos (q : ℚ) : List Char :=
  let ip := Rat.floor q
  let fp := q - ip
  if fp = 0 then natDigits ip.toNat
  else natDigits ip.toNat ++ '.' :: fracDigits 25 fp

/-- Embedding of `strconv.FormatFloat(v, 'f', -1, 64)` (routing.go line
135) on the rational version model: shortest plain decimal rendering,
which for a version with zero fractional part has no dot at all. -/
def formatFloat (q : ℚ) : List Char :=
  if q < 0 then '-' :: formatFloatPos (-q) else formatFloatPos q

/-- Insertion into a strictly sorted duplicate-free list, used to model
the net effect of collecting versions into a Go set and sorting them. -/
def insertUnique (x : ℚ) : List ℚ → List ℚ
  | [] => [x]
  | y :: ys =>
    if x = y then y :: ys
    else if x < y then x :: y :: ys
    else y :: insertUnique x ys

/-- Embedding of `getSortedRouteVersions` (routing.go line 95): the
distinct declared versions in ascending order.  The Go code collects the
versions into a map (a set) and sorts; the model inserts each version
into a sorted duplicate-free list, which produces the same list. -/
def getSortedRouteVersions (rs : List Route) : List ℚ :=
  (rs.map Route.Version).foldr insertUnique []

/-- Embedding of `sort.SearchFloat64s(versions, x)` (routing.go line
127): on an ascending list, the binary search returns the smallest index
whose element is not less than `x`, i.e. the length of the prefix of
elements below `x`. -/
def searchFloat64s (l : List ℚ) (x : ℚ) : Nat :=
  (l.takeWhile (fun v => v < x)).length

/-- Embedding of the version loop of `CreateRouteMap` (routing.go lines
127-134): slice the sorted version list from the binary-search index and
keep iterating while the version is below `nextMajorVer`. -/
def mountVersions (versions : List ℚ) (r : Route) : List ℚ :=
  let nextMajorVer : ℚ := ((goInt r.Version + 1 : ℤ) : ℚ)
  (versions.drop (searchFloat64s versions r.Version)).takeWhile
    (fun version => version < nextMajorVer)

/-- Embedding of the constant `RoutePrefix` (routing.go line 42). -/
def RoutePrefix : List Char := "^api".data

/-- Embedding of the path construction of `CreateRouteMap` (routing.go
line 136): `RoutePrefix + "/" + vstr + "/" + r.Path`. -/
def mkVersionedPath (version : ℚ) (template : List Char) : List Char :=
  RoutePrefix ++ "/".data ++ formatFloat version ++ "/".data ++ template

/-- Embedding of the body of the inner loop of `CreateRouteMap`
(routing.go lines 135-146): one `(method, PathHandler)` entry for a
route mounted at one version, classified by membership of the route's id
in the legacy-bypass (`perlRoutes`) and disabled sets.  Membership tests
model `GetRouteIDMap`, which turns the id list into a set. -/
def routeEntry (perlRouteIDs disabledRouteIDs : List Int) (perlHandler : HExp)
    (authBase : AuthBase) (requestTimeout : Int) (r : Route) (version : ℚ) :
    String × PathHandler :=
  let path := mkVersionedPath version r.Path
  let middlewares :=
    getRouteMiddleware r.Middlewares authBase r.Authenticated r.RequiredPrivLevel requestTimeout
  if r.ID ∈ perlRouteIDs then (r.Method, ⟨path, perlHandler⟩)
  else if r.ID ∈ disabledRouteIDs then
    (r.Method, ⟨path, wrapAccessLog authBase.secret DisabledRouteHandler⟩)
  else (r.Method, ⟨path, use r.Handler middlewares⟩)

/-- Embedding of `CreateRouteMap` (routing.go line 116).  The Go
method-keyed map of slices is modeled as the ordered list of
`(method, PathHandler)` entries (the dispatch loop only observes the
per-method subsequences, whose order both models share).  Returns the
entries and the version set (as the sorted distinct version list). -/
def CreateRouteMap (rs : List Route) (rawRoutes : List RawRoute)
    (perlRouteIDs disabledRouteIDs : List Int) (perlHandler : HExp)
    (authBase : AuthBase) (reqTimeOutSeconds : Int) :
    List (String × PathHandler) × List ℚ :=
  let versions := getSortedRouteVersions rs
  let requestTimeout : Int := if reqTimeOutSeconds > 0 then reqTimeOutSeconds else 60
  let entries := rs.flatMap (fun r =>
    (mountVersions versions r).map
      (routeEntry perlRouteIDs disabledRouteIDs perlHandler authBase requestTimeout r))
  let rawEntries := rawRoutes.map (fun r =>
    (r.Method, PathHandler.mk r.Path
      (use r.Handler
        (getRouteMiddleware r.Middlewares authBase r.Authenticated r.RequiredPrivLevel
          requestTimeout))))
  (entries ++ rawEntries, versions)

/-- Embedding of `strings.Index(s, c)` for a one-character needle: the
index of the first occurrence, or `none` for Go's `-1`. -/
def listIndex (c : Char) : List Char → Option Nat
  | [] => none
  | x :: xs => if x = c then some 0 else (listIndex c xs).map (· + 1)

/-- Capture group text substituted for each placeholder (routing.go line
190). -/
def capGroup : List Char := "([^/]+)".data

/-- Embedding of the template-compilation loop of `CompileRoutes`
(routing.go lines 182-191), with structural fuel (one unit per
placeholder; `count of opening braces + 1` always suffices, see
`compilePath`).  Faithful details: the loop runs only while the first
opening brace is at index greater than zero; a missing closing brace is
the `panic("malformed route")`; a first closing brace strictly before
the opening brace would make the Go slice expression
`route[open+1:close]` panic, modeled as a distinct error. -/
def compileLoop : Nat → List Char → List (List Char) →
    Except String (List Char × List (List Char))
  | 0, _, _ => .error "out of fuel"
  | fuel + 1, route, params =>
    match listIndex '\x7b' route with
    | none => .ok (route, params)
    | some 0 => .ok (route, params)
    | some (oIdx + 1) =>
      match listIndex '\x7d' route with
      | none => .error "malformed route"
      | some cIdx =>
        if cIdx < oIdx + 2 then .error "slice bounds out of range"
        else
          let param := (route.drop (oIdx + 2)).take (cIdx - (oIdx + 2))
          let route := route.take (oIdx + 1) ++ capGroup ++ route.drop (cIdx + 1)
          compileLoop fuel route (params ++ [param])

/-- Compilation of one path string: run the loop with sufficient fuel. -/
def compilePath (route : List Char) : Except String (List Char × List (List Char)) :=
  compileLoop (route.count '\x7b' + 1) route []

/-- Embedding of the `CompiledRoute` struct (routing.go line 89).  The
`Regex` field holds the source text of the compiled pattern; matching
semantics are given by `regexFind` below. -/
structure CompiledRoute where
  Handler : HExp
  Regex : List Char
  Params : List (List Char)
deriving DecidableEq

/-- Embedding of `CompileRoutes` (routing.go line 175): compile every
`(method, PathHandler)` entry; a panic while compiling any entry aborts
the whole table construction. -/
def CompileRoutes : List (String × PathHandler) →
    Except String (List (String × CompiledRoute))
  | [] => .ok []
  | mp :: rest =>
    match compilePath mp.2.Path with
    | .error e => .error e
    | .ok pr =>
      match CompileRoutes rest with
      | .error e => .error e
      | .ok crs => .ok ((mp.1, CompiledRoute.mk mp.2.Handler pr.1 pr.2) :: crs)

/-- Tokens of the regex fragment emitted by the route table: literal
characters, `.` (which in the emitted patterns is an unescaped
metacharacter matching any character, e.g. in version strings such as
`1.2`), and the single-segment capture `([^/]+)`. -/
inductive RTok where
  | lit (c : Char)
  | anyChar
  | capSeg
deriving DecidableEq

/-- Parsing of an emitted pattern (minus a leading `^` anchor) into
tokens.  Go's `regexp` package parses the same fragment identically for
the pattern class the router emits (no other metacharacters occur in
route templates). -/
def parseToks : List Char → List RTok
  | [] => []
  | '(' :: '[' :: '^' :: '/' :: ']' :: '+' :: ')' :: rest => .capSeg :: parseToks rest
  | '.' :: rest => .anyChar :: parseToks rest
  | c :: rest => .lit c :: parseToks rest

/-- Matching of a token list against a prefix of the input (the emitted
patterns are not anchored at the end, so trailing input is ignored),
returning the list of captured substrings.  `capSeg` is greedy with
backtracking, exactly the leftmost-first semantics Go's `regexp` gives
`([^/]+)`.  Fuel is structural; one unit per token suffices, and
`matchHere` supplies it. -/
def matchToks : Nat → List RTok → List Char → Option (List (List Char))
  | 0, _, _ => none
  | _ + 1, [], _ => some []
  | fuel + 1, .lit c :: ts, s =>
    match s with
    | [] => none
    | c' :: s' => if c = c' then matchToks fuel ts s' else none
  | fuel + 1, .anyChar :: ts, s =>
    match s with
    | [] => none
    | _ :: s' => matchToks fuel ts s'
  | fuel + 1, .capSeg :: ts, s =>
    let maxLen := (s.takeWhile (fun c => ¬ c = '/')).length
    (List.range maxLen).findSome? (fun k =>
      let n := maxLen - k
      (matchToks fuel ts (s.drop n)).map (fun caps => s.take n :: caps))

/-- Matching of a token list at the start of the input. -/
def matchHere (toks : List RTok) (s : List Char) : Option (List (List Char)) :=
  matchToks (toks.length + 1) toks s

/-- Leftmost unanchored search: try every start position from the left,
first success wins (Go `FindStringSubmatch` on a pattern with no `^`). -/
def findFrom (toks : List RTok) : List Char → Option (List (List Char))
  | [] => matchHere toks []
  | c :: rest =>
    match matchHere toks (c :: rest) with
    | some caps => some caps
    | none => findFrom toks rest

/-- Embedding of `compiledRoute.Regex.FindStringSubmatch(requested)`
(routing.go line 242): a leading `^` anchors the match at the start of
the text; otherwise the leftmost match anywhere in the text is taken.
Returns just the capture-group texts (`match[1:]` in Go). -/
def regexFind (pattern : List Char) (s : List Char) : Option (List (List Char)) :=
  match pattern with
  | '^' :: rest => matchHere (parseToks rest) s
  | _ => findFrom (parseToks pattern) s

/-- Embedding of the dispatch loop of `Handler` (routing.go lines
241-255): try each compiled route in order, first whose pattern matches
wins. -/
def firstMatch : List CompiledRoute → List Char → Option (CompiledRoute × List (List Char))
  | [], _ => none
  | cr :: rest, s =>
    match regexFind cr.Regex s with
    | some caps => some (cr, caps)
    | none => firstMatch rest s

/-- Embedding of the parameter-binding loop of `Handler` (routing.go
lines 246-249): `params[v] = match[i+1]` pairs the i-th parameter name
with the i-th capture; the insertion sequence is the positional zip. -/
def bindParams (names : List (List Char)) (caps : List (List Char)) :
    List (List Char × List Char) :=
  names.zip caps

/-- Embedding of `strings.Split(s, "/")`: splitting on every slash,
keeping empty parts (the empty string splits to one empty part). -/
def splitSlash : List Char → List (List Char)
  | [] => [[]]
  | c :: rest =>
    match splitSlash rest with
    | [] => [[c]]
    | p :: ps => if c = '/' then [] :: p :: ps else (c :: p) :: ps

/-- ASCII lowercasing of one character; `strings.ToLower` restricted to
the ASCII path segments compared against `"api"`. -/
def asciiLower (c : Char) : Char :=
  if 'A' ≤ c ∧ c ≤ 'Z' then Char.ofNat (c.toNat + 32) else c

/-- Numeric value of an ASCII digit. -/
def digitVal (c : Char) : Option Nat :=
  if '0' ≤ c ∧ c ≤ '9' then some (c.toNat - '0'.toNat) else none

/-- Parsing of a digit string into a natural number, rejecting any
non-digit character; the empty string parses to zero (callers guard
emptiness as Go does). -/
def parseDigitsAux (acc : Nat) : List Char → Option Nat
  | [] => some acc
  | c :: rest =>
    match digitVal c with
    | none => none
    | some d => parseDigitsAux (acc * 10 + d) rest

/-- Embedding of `strconv.ParseFloat(s, 64)` restricted to the plain
decimal forms (`[+-]? digits [. digits]?`, at least one digit) that API
version segments take; exponent, hex, infinity and NaN forms of
`ParseFloat` are not modeled. -/
def parseGoFloat (s : List Char) : Option ℚ :=
  let signAndRest : Bool × List Char :=
    match s with
    | '-' :: rest => (true, rest)
    | '+' :: rest => (false, rest)
    | _ => (false, s)
  let neg := signAndRest.1
  let s1 := signAndRest.2
  if s1 = [] then none
  else
    let ipart := s1.takeWhile (fun c => ¬ c = '.')
    let rest := s1.dropWhile (fun c => ¬ c = '.')
    match rest with
    | [] => (parseDigitsAux 0 ipart).map (fun n => if neg then -(n : ℚ) else (n : ℚ))
    | _ :: frac =>
      if ipart = [] ∧ frac = [] then none
      else
        match parseDigitsAux 0 ipart, parseDigitsAux 0 frac with
        | some ip, some fp =>
          let v : ℚ := (ip : ℚ) + (fp : ℚ) / ((10 : ℚ) ^ frac.length)
          some (if neg then -v else v)
        | _, _ => none

/-- Embedding of `IsRequestAPIAndUnknownVersion` (routing.go line 267):
split the full URL path on slashes; not an API request unless the second
part lowercases to `api`; an API request with no third part, or an
unparsable or undeclared version in the third part, is an unknown
version. -/
def IsRequestAPIAndUnknownVersion (urlPath : List Char) (versions : List ℚ) : Bool :=
  let pathParts := splitSlash urlPath
  if pathParts.length < 2 then false
  else if ¬ (pathParts.getD 1 []).map asciiLower = "api".data then false
  else if pathParts.length < 3 then true
  else
    match parseGoFloat (pathParts.getD 2 []) with
    | none => true
    | some version => decide (version ∉ versions)

/-- Outcome of one request's dispatch, observing exactly the
control-flow exits of `Handler` (routing.go lines 229-263) after the
logging and context steps: plugin interception, a matched compiled route
invoked with its bound parameters, the synthesized unknown-version
response, or the catch-all. -/
inductive DispatchResult where
  | pluginHandled
  | matched (handler : HExp) (params : List (List Char × List Char))
  | unknownVersion (response : HExp)
  | catchall
deriving DecidableEq

/-- Embedding of `Handler` (routing.go line 200) from the plugin hook
onward: if the plugin reported the request handled, stop; otherwise
strip the leading slash, look up the method's compiled routes (a map
miss goes straight to the catch-all), take the first pattern match, and
otherwise classify between the unknown-version response (wrapped in
access logging with the primary secret `cfg.Secrets[0]`) and the
catch-all. -/
def Handler (compiledRoutes : List (String × CompiledRoute)) (versions : List ℚ)
    (secrets : List String) (pluginDidHandle : Bool) (method : String)
    (urlPath : List Char) : DispatchResult :=
  if pluginDidHandle then .pluginHandled
  else
    let requested := urlPath.drop 1
    let mRoutes := (compiledRoutes.filter (fun e => e.1 = method)).map Prod.snd
    if mRoutes.isEmpty then .catchall
    else
      match firstMatch mRoutes requested with
      | some (cr, mtch) => .matched cr.Handler (bindParams cr.Params mtch)
      | none =>
        if IsRequestAPIAndUnknownVersion urlPath versions then
          .unknownVersion (wrapAccessLog (secrets.headD "") NotImplementedHandler)
        else .catchall

theorem use_nil (h : HExp) : use h [] = h := rfl

theorem use_eq_foldr (h : HExp) (ms : List MExp) :
    use h ms = ms.foldr (fun m acc => HExp.wrap m acc) h := by
  simp [use, List.foldl_reverse]

theorem ratFloor_eq_floor (q : ℚ) : Rat.floor q = ⌊q⌋ := by
  rw [Rat.floor_def', Rat.floor_def]

theorem goInt_of_nonneg (q : ℚ) (h : 0 ≤ q) : goInt q = ⌊q⌋ := by
  rw [goInt, if_pos h, ratFloor_eq_floor]

theorem mem_insertUnique (x v : ℚ) (l : List ℚ) :
    v ∈ insertUnique x l ↔ v = x ∨ v ∈ l := by
  induction l with
  | nil => simp [insertUnique]
  | cons y ys ih =>
    by_cases hxy : x = y
    · subst hxy
      simp [insertUnique]
    · by_cases hlt : x < y
      · simp [insertUnique, hxy, hlt]
      · simp [insertUnique, hxy, hlt, ih]
        tauto

theorem insertUnique_pairwise (x : ℚ) (l : List ℚ) (h : l.Pairwise (· < ·)) :
    (insertUnique x l).Pairwise (· < ·) := by
  induction l with
  | nil => simp [insertUnique]
  | cons y ys ih =>
    rcases List.pairwise_cons.1 h with ⟨hy, hys⟩
    by_cases hxy : x = y
    · subst hxy
      simpa [insertUnique] using h
    · by_cases hlt : x < y
      · rw [insertUnique, if_neg hxy, if_pos hlt]
        refine List.pairwise_cons.2 ⟨?_, h⟩
        intro a ha
        rcases List.mem_cons.1 ha with rfl | ha
        · exact hlt
        · exact lt_trans hlt (hy a ha)
      · have hyx : y < x := by
          rcases lt_trichotomy x y with h1 | h1 | h1
          · exact absurd h1 hlt
          · exact absurd h1 hxy
          · exact h1
        rw [insertUnique, if_neg hxy, if_neg hlt]
        refine List.pairwise_cons.2 ⟨?_, ih hys⟩
        intro a ha
        rcases (mem_insertUnique x a ys).1 ha with rfl | ha
        · exact hyx
        · exact hy a ha

theorem getSortedRouteVersions_pairwise (rs : List Route) :
    (getSortedRouteVersions rs).Pairwise (· < ·) := by
  rw [getSortedRouteVersions]
  induction rs.map Route.Version with
  | nil => simp
  | cons v vs ih => exact insertUnique_pairwise v _ ih

theorem mem_getSortedRouteVersions (rs : List Route) (v : ℚ) :
    v ∈ getSortedRouteVersions rs ↔ v ∈ rs.map Route.Version := by
  rw [getSortedRouteVersions]
  induction rs.map Route.Version with
  | nil => simp
  | cons w ws ih =>
    simp only [List.foldr_cons, mem_insertUnique, ih, List.mem_cons]

theorem mem_takeWhile_lt (y : ℚ) (l : List ℚ) (hs : l.Pairwise (· < ·)) (v : ℚ) :
    v ∈ l.takeWhile (fun u => u < y) ↔ v ∈ l ∧ v < y := by
  induction l with
  | nil => simp
  | cons a t ih =>
    rcases List.pairwise_cons.1 hs with ⟨ha, ht⟩
    by_cases h : a < y
    · simp only [List.takeWhile_cons, decide_eq_true_eq, if_pos h, List.mem_cons, ih ht]
      constructor
      · rintro (rfl | ⟨hv, hvy⟩)
        · exact ⟨Or.inl rfl, h⟩
        · exact ⟨Or.inr hv, hvy⟩
      · rintro ⟨rfl | hv, hvy⟩
        · exact Or.inl rfl
        · exact Or.inr ⟨hv, hvy⟩
    · simp only [List.takeWhile_cons, decide_eq_true_eq, if_neg h, List.not_mem_nil,
        false_iff, List.mem_cons]
      rintro ⟨rfl | hv, hvy⟩
      · exact h hvy
      · exact h (lt_trans (ha v hv) hvy)

theorem mem_dropWhile_lt (x : ℚ) (l : List ℚ) (hs : l.Pairwise (· < ·)) (v : ℚ) :
    v ∈ l.dropWhile (fun u => u < x) ↔ v ∈ l ∧ x ≤ v := by
  induction l with
  | nil => simp
  | cons a t ih =>
    rcases List.pairwise_cons.1 hs with ⟨ha, ht⟩
    by_cases h : a < x
    · simp only [List.dropWhile_cons, decide_eq_true_eq, if_pos h, ih ht, List.mem_cons]
      constructor
      · rintro ⟨hv, hxv⟩
        exact ⟨Or.inr hv, hxv⟩
      · rintro ⟨rfl | hv, hxv⟩
        · exact absurd h (not_lt.2 hxv)
        · exact ⟨hv, hxv⟩
    · simp only [List.dropWhile_cons, decide_eq_true_eq, if_neg h, List.mem_cons]
      constructor
      · rintro (rfl | hv)
        · exact ⟨Or.inl rfl, not_lt.1 h⟩
        · exact ⟨Or.inr hv, le_of_lt (lt_of_le_of_lt (not_lt.1 h) (ha v hv))⟩
      · rintro ⟨hv, _⟩
        exact hv

theorem drop_searchFloat64s (l : List ℚ) (x : ℚ) :
    l.drop (searchFloat64s l x) = l.dropWhile (fun u => u < x) := by
  induction l with
  | nil => rfl
  | cons a t ih =>
    by_cases h : a < x
    · simp only [searchFloat64s, List.takeWhile_cons, List.dropWhile_cons,
        decide_eq_true_eq, if_pos h, List.length_cons, List.drop_succ_cons]
      simpa [searchFloat64s] using ih
    · simp [searchFloat64s, List.takeWhile_cons, List.dropWhile_cons, h]

theorem mem_mountVersions (versions : List ℚ) (r : Route)
    (hs : versions.Pairwise (· < ·)) (h0 : 0 ≤ r.Version) (v : ℚ) :
    v ∈ mountVersions versions r ↔
      v ∈ versions ∧ r.Version ≤ v ∧ v < ((⌊r.Version⌋ + 1 : ℤ) : ℚ) := by
  rw [mountVersions]
  simp only [goInt_of_nonneg r.Version h0, drop_searchFloat64s]
  have hs' : (versions.dropWhile (fun u => u < r.Version)).Pairwise (· < ·) :=
    List.Pairwise.sublist (List.dropWhile_sublist _) hs
  rw [mem_takeWhile_lt _ _ hs' v, mem_dropWhile_lt _ _ hs v]
  tauto

/-- C1: a route is mounted exactly at the declared versions `v` with
`r.Version ≤ v < floor(r.Version) + 1`.  The first conjunct characterizes
the declared-version set, the second the set of versions a route is
mounted at, and the third ties `CreateRouteMap`'s produced entries to
those versions: one entry per applicable version, under the route's
method, at a path carrying that version (see `routeEntry`). -/
theorem C1_version_propagation (rs : List Route) (rawRoutes : List RawRoute)
    (perlRouteIDs disabledRouteIDs : List Int) (perlHandler : HExp)
    (authBase : AuthBase) (reqTimeOutSeconds : Int) (r : Route)
    (h0 : 0 ≤ r.Version) :
    (∀ v : ℚ, v ∈ getSortedRouteVersions rs ↔ v ∈ rs.map Route.Version)
    ∧ (∀ v : ℚ,
        v ∈ mountVersions (getSortedRouteVersions rs) r ↔
          v ∈ getSortedRouteVersions rs ∧ r.Version ≤ v ∧
            v < ((⌊r.Version⌋ + 1 : ℤ) : ℚ))
    ∧ (CreateRouteMap rs rawRoutes perlRouteIDs disabledRouteIDs perlHandler authBase
          reqTimeOutSeconds).1 =
        rs.flatMap (fun r0 =>
          (mountVersions (getSortedRouteVersions rs) r0).map
            (routeEntry perlRouteIDs disabledRouteIDs perlHandler authBase
              (if reqTimeOutSeconds > 0 then reqTimeOutSeconds else 60) r0)) ++
        rawRoutes.map (fun r0 =>
          (r0.Method, PathHandler.mk r0.Path
            (use r0.Handler
              (getRouteMiddleware r0.Middlewares authBase r0.Authenticated
                r0.RequiredPrivLevel
                (if reqTimeOutSeconds > 0 then reqTimeOutSeconds else 60))))) := by
  refine ⟨mem_getSortedRouteVersions rs, ?_, rfl⟩
  exact mem_mountVersions _ r (getSortedRouteVersions_pairwise rs) h0

/-- Route declared at version 1.2, used to witness C1. -/
def c1Route12 : Route :=
  { Version := (6 : ℚ)/5, Method := "GET", Path := "b".data, Handler := .base 2,
    RequiredPrivLevel := 0, Authenticated := false, Middlewares := none,
    ID := 2, CanBypassToPerl := false }

/-- Route set used to witness C1: declared versions 1.1, 1.2, 1.3, 2. -/
def c1Routes : List Route :=
  [{ Version := (11 : ℚ)/10, Method := "GET", Path := "a".data, Handler := .base 1,
     RequiredPrivLevel := 0, Authenticated := false, Middlewares := none,
     ID := 1, CanBypassToPerl := false },
   c1Route12,
   { Version := (13 : ℚ)/10, Method := "GET", Path := "c".data, Handler := .base 3,
     RequiredPrivLevel := 0, Authenticated := false, Middlewares := none,
     ID := 3, CanBypassToPerl := false },
   { Version := 2, Method := "GET", Path := "d".data, Handler := .base 4,
     RequiredPrivLevel := 0, Authenticated := false, Middlewares := none,
     ID := 4, CanBypassToPerl := false }]

/-- Witness for C1 at a concrete route set: the route declared at 1.2 is
mounted at declared version 1.3 (1.3 is declared, 1.2 ≤ 1.3 < 2) but not
at declared version 2. -/
theorem C1_version_propagation_witness :
    ((13 : ℚ)/10 ∈ mountVersions (getSortedRouteVersions c1Routes) c1Route12
      ∧ ¬ ((2 : ℚ) ∈ mountVersions (getSortedRouteVersions c1Routes) c1Route12)) := by
  have h := (C1_version_propagation c1Routes [] [] [] (.base 0) ⟨"s"⟩ 0
    c1Route12 (by decide)).2.1
  constructor
  · exact (h ((13 : ℚ)/10)).mpr ⟨by decide, by decide, by decide⟩
  · intro hmem
    have h2 := (h 2).mp hmem
    revert h2
    decide

/-- C4: each entry produced for a mounted route is classified by the
route's id: a legacy-bypass id installs exactly the supplied legacy
handler with no middleware; otherwise a disabled id installs the fixed
disabled-route handler wrapped only in access logging; otherwise the
route's own handler wrapped in its resolved middleware chain.  The final
conjunct ties the classification to the entries `CreateRouteMap`
actually produces. -/
theorem C4_entry_classification (perlRouteIDs disabledRouteIDs : List Int)
    (perlHandler : HExp) (authBase : AuthBase) (requestTimeout : Int)
    (r : Route) (version : ℚ) (rs : List Route) (rawRoutes : List RawRoute)
    (reqTimeOutSeconds : Int) :
    ((routeEntry perlRouteIDs disabledRouteIDs perlHandler authBase requestTimeout
        r version).1 = r.Method)
    ∧ ((routeEntry perlRouteIDs disabledRouteIDs perlHandler authBase requestTimeout
        r version).2.Path = mkVersionedPath version r.Path)
    ∧ ((routeEntry perlRouteIDs disabledRouteIDs perlHandler authBase requestTimeout
        r version).2.Handler =
        if r.ID ∈ perlRouteIDs then perlHandler
        else if r.ID ∈ disabledRouteIDs then
          wrapAccessLog authBase.secret DisabledRouteHandler
        else use r.Handler
          (getRouteMiddleware r.Middlewares authBase r.Authenticated
            r.RequiredPrivLevel requestTimeout))
    ∧ ((CreateRouteMap rs rawRoutes perlRouteIDs disabledRouteIDs perlHandler authBase
          reqTimeOutSeconds).1 =
        rs.flatMap (fun r0 =>
          (mountVersions (getSortedRouteVersions rs) r0).map
            (routeEntry perlRouteIDs disabledRouteIDs perlHandler authBase
              (if reqTimeOutSeconds > 0 then reqTimeOutSeconds else 60) r0)) ++
        rawRoutes.map (fun r0 =>
          (r0.Method, PathHandler.mk r0.Path
            (use r0.Handler
              (getRouteMiddleware r0.Middlewares authBase r0.Authenticated
                r0.RequiredPrivLevel
                (if reqTimeOutSeconds > 0 then reqTimeOutSeconds else 60)))))) := by
  refine ⟨?_, ?_, ?_, rfl⟩ <;>
  · rw [routeEntry]
    by_cases hp : r.ID ∈ perlRouteIDs
    · simp [hp]
    · by_cases hd : r.ID ∈ disabledRouteIDs <;> simp [hp, hd]

/-- C5: the resolved middleware list is the explicit per-route list
verbatim when supplied (the default chain is not appended), otherwise
the default chain of access logging, timeout, headers, panic recovery;
and exactly one authorization middleware parameterized by the required
privilege level is appended if and only if the route is authenticated,
including at privilege level zero. -/
theorem C5_middleware_resolution (middlewares : Option (List MExp))
    (authBase : AuthBase) (authenticated : Bool) (privLevel : Int)
    (requestTimeout : Int) :
    (getRouteMiddleware middlewares authBase authenticated privLevel requestTimeout =
      (match middlewares with
        | none => getDefaultMiddleware authBase.secret requestTimeout
        | some ms => ms) ++
      (if authenticated then [MExp.authWrapper privLevel] else []))
    ∧ (getDefaultMiddleware authBase.secret requestTimeout =
        [getWrapAccessLog authBase.secret, .timeOutWrapper requestTimeout,
         .wrapHeaders, .wrapPanicRecover]) := by
  refine ⟨?_, rfl⟩
  cases middlewares <;> cases authenticated <;>
    simp [getRouteMiddleware, AuthBase.GetWrapper]

/-- C6: applying a middleware list to a handler nests the first-listed
middleware outermost, and in the instrumentation semantics a handler
wrapped in `[A, B]` runs A's pre-logic, then B's pre-logic, then the
handler, then B's post-logic, then A's post-logic. -/
theorem C6_composition_order :
    (∀ (h : HExp) (ms : List MExp),
      use h ms = ms.foldr (fun m acc => HExp.wrap m acc) h)
    ∧ (∀ (h : HExp) (A B : MExp), use h [A, B] = .wrap A (.wrap B h))
    ∧ (∀ (h : HExp) (A B : MExp),
        runTrace (use h [A, B]) =
          .enter A :: .enter B :: (runTrace h ++ [.leave B, .leave A])) := by
  refine ⟨use_eq_foldr, fun h A B => rfl, fun h A B => ?_⟩
  show runTrace (.wrap A (.wrap B h)) = _
  simp [runTrace]

/-- Fractional-free rational: when the denominator is one the value is
its numerator. -/
theorem ratFloor_den_one (q : ℚ) (h : q.den = 1) : Rat.floor q = q.num := by
  rw [Rat.floor, if_pos h]

theorem intCast_of_den_one (q : ℚ) (h : q.den = 1) : ((q.num : ℚ)) = q := by
  have := Rat.num_div_den q
  rw [h] at this
  simpa using this

theorem digitChar_mod_ne_dot (n : Nat) : Nat.digitChar (n % 10) ≠ '.' := by
  have h : n % 10 < 10 := Nat.mod_lt _ (by omega)
  interval_cases h0 : n % 10 <;> decide

theorem natDigitsAux_ne_dot (fuel n : Nat) (acc : List Char)
    (hacc : ∀ c ∈ acc, c ≠ '.') : ∀ c ∈ natDigitsAux fuel n acc, c ≠ '.' := by
  induction fuel generalizing n acc with
  | zero => exact hacc
  | succ fuel ih =>
    rw [natDigitsAux]
    have hcons : ∀ c ∈ Nat.digitChar (n % 10) :: acc, c ≠ '.' := by
      intro c hc
      rcases List.mem_cons.1 hc with rfl | hc
      · exact digitChar_mod_ne_dot n
      · exact hacc c hc
    by_cases h : n / 10 = 0
    · simpa [h] using hcons
    · simpa [h] using ih (n / 10) _ hcons

theorem natDigits_ne_dot (n : Nat) : '.' ∉ natDigits n := by
  intro h
  exact natDigitsAux_ne_dot (n + 1) n [] (by simp) '.' h rfl

/-- C9: mounted paths are the API prefix, a slash, the version in
compact decimal form, a slash, and the template; an integral version
renders as its integer digits with no dot at all (so 2.0 mounts under
`api/2/`), while 1.2 renders as `1.2`; the final conjunct evaluates
`CreateRouteMap` on routes declared at 1.2 and 2.0 and shows the exact
mounted paths. -/
theorem C9_compact_versions (version : ℚ) (template : List Char)
    (q : ℚ) (h0 : 0 ≤ q) (h1 : q.den = 1) :
    (mkVersionedPath version template =
      "^api/".data ++ formatFloat version ++ "/".data ++ template)
    ∧ (formatFloat q = natDigits q.num.toNat ∧ '.' ∉ formatFloat q)
    ∧ (formatFloat 2 = "2".data ∧ formatFloat ((6 : ℚ)/5) = "1.2".data)
    ∧ ((CreateRouteMap [c1Route12,
          { Version := 2, Method := "GET", Path := "d".data, Handler := .base 4,
            RequiredPrivLevel := 0, Authenticated := false, Middlewares := none,
            ID := 4, CanBypassToPerl := false }] [] [] [] (.base 0) ⟨"s"⟩ 0).1.map
        (fun e => e.2.Path) = ["^api/1.2/b".data, "^api/2/d".data]) := by
  have hff : formatFloat q = natDigits q.num.toNat := by
    rw [formatFloat, if_neg (not_lt.2 h0), formatFloatPos]
    simp only [ratFloor_den_one q h1]
    have hfp : q - ((q.num : ℤ) : ℚ) = 0 := by
      rw [intCast_of_den_one q h1]
      ring
    simp [hfp]
  refine ⟨rfl, ⟨hff, ?_⟩, ⟨by rfl, by rfl⟩, by rfl⟩
  rw [hff]
  exact natDigits_ne_dot _

/-- Witness for C9: at version 2 (denominator one) the rendering is the
bare integer digits, dot-free. -/
theorem C9_compact_versions_witness :
    formatFloat 2 = natDigits (2 : ℚ).num.toNat ∧ '.' ∉ formatFloat (2 : ℚ) :=
  (C9_compact_versions 2 [] 2 (by decide) (by decide)).2.1

theorem firstMatch_append (pre post : List CompiledRoute) (cr : CompiledRoute)
    (s : List Char) (caps : List (List Char))
    (hpre : ∀ c ∈ pre, regexFind c.Regex s = none)
    (hcr : regexFind cr.Regex s = some caps) :
    firstMatch (pre ++ cr :: post) s = some (cr, caps) := by
  induction pre with
  | nil => simp [firstMatch, hcr]
  | cons c cs ih =>
    have hc : regexFind c.Regex s = none := hpre c (by simp)
    simp only [List.cons_append, firstMatch, hc]
    exact ih (fun d hd => hpre d (List.mem_cons_of_mem c hd))

/-- C2: the dispatch engine tries a method's compiled routes in
registration order and invokes the first whose pattern matches: whenever
the method's route list splits as `pre ++ cr :: post` with nothing in
`pre` matching and `cr` matching, `cr`'s handler is invoked with its
captures bound.  The last two conjuncts exhibit two overlapping patterns
on the same concrete path: in one registration order the first handler
runs, in the reversed order the other one does. -/
theorem C2_first_match_wins (compiledRoutes : List (String × CompiledRoute))
    (versions : List ℚ) (secrets : List String) (method : String)
    (urlPath : List Char) (pre post : List CompiledRoute) (cr : CompiledRoute)
    (caps : List (List Char))
    (hroutes : (compiledRoutes.filter (fun e => e.1 = method)).map Prod.snd =
      pre ++ cr :: post)
    (hpre : ∀ c ∈ pre, regexFind c.Regex (urlPath.drop 1) = none)
    (hcr : regexFind cr.Regex (urlPath.drop 1) = some caps) :
    (Handler compiledRoutes versions secrets false method urlPath =
      .matched cr.Handler (bindParams cr.Params caps))
    ∧ (Handler [("GET", ⟨.base 1, "^a/b".data, []⟩), ("GET", ⟨.base 2, "^a".data, []⟩)]
        [] ["s"] false "GET" "/a/b".data = .matched (.base 1) [])
    ∧ (Handler [("GET", ⟨.base 2, "^a".data, []⟩), ("GET", ⟨.base 1, "^a/b".data, []⟩)]
        [] ["s"] false "GET" "/a/b".data = .matched (.base 2) []) := by
  refine ⟨?_, by rfl, by rfl⟩
  have hne : (pre ++ cr :: post).isEmpty = false := by cases pre <;> rfl
  simp only [Handler, Bool.false_eq_true, if_false, hroutes, hne,
    firstMatch_append pre post cr _ caps hpre hcr]

/-- Witness for C2 at a concrete table: with the more specific pattern
registered first and matching, its handler is the one invoked. -/
theorem C2_first_match_wins_witness :
    Handler [("GET", ⟨.base 1, "^a/b".data, []⟩), ("GET", ⟨.base 2, "^a".data, []⟩)]
      [] ["s"] false "GET" "/a/b".data =
      .matched (HExp.base 1) (bindParams [] []) :=
  (C2_first_match_wins
    [("GET", ⟨.base 1, "^a/b".data, []⟩), ("GET", ⟨.base 2, "^a".data, []⟩)]
    [] ["s"] "GET" "/a/b".data [] [⟨.base 2, "^a".data, []⟩]
    ⟨.base 1, "^a/b".data, []⟩ [] (by rfl) (by simp) (by rfl)).1

/-- C3 counterexample: a request whose method has no compiled route at
all (here a GET request while only a POST route is registered) matches
no CompiledRoute and its path is an API path with an undeclared version
(9.9), yet the engine invokes the catch-all rather than responding with
the unknown-version response: the method-lookup miss bypasses the
version check (routing.go lines 235-239). -/
theorem C3_counterexample :
    IsRequestAPIAndUnknownVersion "/api/9.9/foo".data [(6 : ℚ)/5, 2] = true
    ∧ Handler [("POST", ⟨.base 1, "^x".data, []⟩)] [(6 : ℚ)/5, 2] ["s"] false "GET"
        "/api/9.9/foo".data = .catchall := ⟨rfl, rfl⟩

/-- C3 as amended: for a request whose method has at least one compiled
route and on which none matched, the engine responds with the
unknown-version response (wrapped in access logging with the primary
secret) exactly when the path is an API path with a missing or
undeclared version, and with the catch-all otherwise; when the method
has no compiled route the catch-all runs regardless of the path.  The
final conjuncts classify the two concrete paths named by the claim. -/
theorem C3_unknown_version (compiledRoutes : List (String × CompiledRoute))
    (versions : List ℚ) (secrets : List String) (method : String)
    (urlPath : List Char)
    (hne : (compiledRoutes.filter (fun e => e.1 = method)).map Prod.snd ≠ [])
    (hnomatch : firstMatch ((compiledRoutes.filter (fun e => e.1 = method)).map Prod.snd)
      (urlPath.drop 1) = none) :
    (Handler compiledRoutes versions secrets false method urlPath =
      if IsRequestAPIAndUnknownVersion urlPath versions then
        .unknownVersion (wrapAccessLog (secrets.headD "") NotImplementedHandler)
      else .catchall)
    ∧ (∀ (cs : List (String × CompiledRoute)) (vs : List ℚ) (ss : List String)
        (m : String) (p : List Char),
        cs.filter (fun e => e.1 = m) = [] →
        Handler cs vs ss false m p = .catchall)
    ∧ IsRequestAPIAndUnknownVersion "/api/9.9/foo".data [(6 : ℚ)/5, 2] = true
    ∧ IsRequestAPIAndUnknownVersion "/apifoo".data [(6 : ℚ)/5, 2] = false := by
  refine ⟨?_, ?_, rfl, rfl⟩
  · have hemp : ((compiledRoutes.filter (fun e => e.1 = method)).map Prod.snd).isEmpty
        = false := by
      cases h : (compiledRoutes.filter (fun e => e.1 = method)).map Prod.snd with
      | nil => exact absurd h hne
      | cons a t => rfl
    simp only [Handler, Bool.false_eq_true, if_false, hemp, hnomatch]
  · intro cs vs ss m p hfil
    simp [Handler, hfil]

/-- Witness for C3 as amended: a GET route is registered but does not
match `/api/9.9/foo` with 9.9 undeclared, so the unknown-version
response (access-log wrapped with the primary secret) is produced. -/
theorem C3_unknown_version_witness :
    Handler [("GET", ⟨.base 1, "^zz".data, []⟩)] [(6 : ℚ)/5, 2] ["s"] false "GET"
      "/api/9.9/foo".data =
      if IsRequestAPIAndUnknownVersion "/api/9.9/foo".data [(6 : ℚ)/5, 2] then
        .unknownVersion (wrapAccessLog (["s"].headD "") NotImplementedHandler)
      else .catchall :=
  (C3_unknown_version [("GET", ⟨.base 1, "^zz".data, []⟩)] [(6 : ℚ)/5, 2] ["s"] "GET"
    "/api/9.9/foo".data (by decide) (by rfl)).1

/-- C8 counterexample: a path template whose opening brace sits at index
0 and has no closing brace compiles without error — the Go loop only
processes a brace at a strictly positive index — so compilation does not
fail for every template with an unmatched opening brace. -/
theorem C8_counterexample :
    compilePath "\x7bid".data = .ok ("\x7bid".data, [])
    ∧ CompileRoutes [("GET", PathHandler.mk "\x7bid".data (.base 1))] =
        .ok [("GET", CompiledRoute.mk (.base 1) "\x7bid".data [])] := ⟨rfl, rfl⟩

theorem listIndex_cons_of_ne (c x : Char) (xs : List Char) (h : ¬ x = c) :
    listIndex c (x :: xs) = (listIndex c xs).map (· + 1) := by
  simp [listIndex, h]

theorem exists_listIndex_of_mem (c : Char) (l : List Char) (h : c ∈ l) :
    ∃ i, listIndex c l = some i := by
  induction l with
  | nil => cases h
  | cons x xs ih =>
    by_cases hx : x = c
    · exact ⟨0, by simp [listIndex, hx]⟩
    · rcases List.mem_cons.1 h with rfl | hm
      · exact absurd rfl hx
      · rcases ih hm with ⟨i, hi⟩
        exact ⟨i + 1, by simp [listIndex, hx, hi]⟩

theorem listIndex_decomp (c : Char) (l : List Char) (i : Nat)
    (h : listIndex c l = some i) :
    ∃ pre suf, l = pre ++ c :: suf ∧ pre.length = i ∧ c ∉ pre := by
  induction l generalizing i with
  | nil => simp [listIndex] at h
  | cons x xs ih =>
    by_cases hx : x = c
    · subst hx
      simp [listIndex] at h
      refine ⟨[], xs, by simp, ?_, by simp⟩
      simp
      omega
    · rw [listIndex_cons_of_ne c x xs hx] at h
      cases hj : listIndex c xs with
      | none => rw [hj] at h; simp at h
      | some j =>
        rw [hj] at h
        simp only [Option.map_some', Option.some.injEq] at h
        rcases ih j hj with ⟨pre, suf, hl, hlen, hnot⟩
        refine ⟨x :: pre, suf, by simp [hl], by simp [hlen, h], ?_⟩
        intro hm
        rcases List.mem_cons.1 hm with rfl | hm
        · exact hx rfl
        · exact hnot hm

/-- Failure lemma for the compilation loop: as long as the route string
has a suffix containing an opening brace but no closing brace (an
unmatched opening brace), and the first opening brace of the string is
at a strictly positive index, the loop ends in one of its two panics:
`malformed route` when no closing brace remains, or the slice panic when
the first closing brace precedes the first opening brace.  The suffix
and the positive first-brace position are preserved by every
substitution step, and each step removes at least one opening brace, so
the fuel `count + 1` used by `compilePath` never runs out first. -/
theorem compileLoop_unmatched (fuel : Nat) :
    ∀ (route x y : List Char) (params : List (List Char)),
    route = x ++ y → '\x7b' ∈ y → '\x7d' ∉ y →
    listIndex '\x7b' route ≠ some 0 →
    route.count '\x7b' < fuel →
    (compileLoop fuel route params = .error "malformed route" ∨
     compileLoop fuel route params = .error "slice bounds out of range") := by
  induction fuel with
  | zero =>
    intro route x y params hxy hmy hny hpos hcnt
    exact absurd hcnt (Nat.not_lt_zero _)
  | succ f ih =>
    intro route x y params hxy hmy hny hpos hcnt
    have hmem : '\x7b' ∈ route := by
      rw [hxy]
      exact List.mem_append.2 (Or.inr hmy)
    obtain ⟨o, ho⟩ := exists_listIndex_of_mem _ _ hmem
    obtain ⟨k, rfl⟩ : ∃ k, o = k + 1 := by
      cases o with
      | zero => exact absurd ho hpos
      | succ k => exact ⟨k, rfl⟩
    obtain ⟨pre0, suf0, hroute0, hlen0, hnot0⟩ := listIndex_decomp _ _ _ ho
    cases hc : listIndex '\x7d' route with
    | none =>
      left
      simp [compileLoop, ho, hc]
    | some c =>
      by_cases hcase : c < k + 2
      · right
        simp [compileLoop, ho, hc, hcase]
      · obtain ⟨preC, sufC, hrouteC, hlenC, hnotC⟩ := listIndex_decomp _ _ _ hc
        have hy : y = route.drop x.length := by
          rw [hxy, List.drop_left]
        have hxlen : preC.length + 1 ≤ x.length := by
          by_contra hlt
          push_neg at hlt
          apply hny
          rw [hy, hrouteC, List.drop_append_eq_append_drop]
          refine List.mem_append.2 (Or.inr ?_)
          have hn : x.length - preC.length = 0 := by omega
          rw [hn]
          exact List.mem_cons_self _ _
        have hw : ∃ w, sufC = w ++ y := by
          refine ⟨sufC.take (x.length - (preC.length + 1)), ?_⟩
          have h1 : route = (preC ++ ['\x7d']) ++ sufC := by
            rw [hrouteC]
            simp
          have h2 : y = sufC.drop (x.length - (preC.length + 1)) := by
            rw [hy, h1, List.drop_append_eq_append_drop]
            have h3 : (preC ++ ['\x7d']).drop x.length = [] := by
              apply List.drop_eq_nil_of_le
              simp
              omega
            rw [h3]
            simp [List.length_append]
          rw [h2]
          exact (List.take_append_drop _ _).symm
        obtain ⟨w, hwEq⟩ := hw
        have htake : route.take (k + 1) = pre0 := by
          rw [hroute0, ← hlen0]
          exact List.take_left _ _
        have hdropC : route.drop (c + 1) = sufC := by
          have h1 : route = (preC ++ ['\x7d']) ++ sufC := by
            rw [hrouteC]
            simp
          have h2 : (preC ++ ['\x7d']).length = c + 1 := by
            simp [hlenC]
          rw [h1, ← h2]
          exact List.drop_left _ _
        obtain ⟨q, qs, hq⟩ : ∃ q qs, pre0 = q :: qs := by
          cases hp0 : pre0 with
          | nil =>
            rw [hp0] at hlen0
            simp at hlen0
          | cons q qs => exact ⟨q, qs, rfl⟩
        have hqne : ¬ q = '\x7b' := by
          intro hqe
          apply hnot0
          rw [hq, hqe]
          exact List.mem_cons_self _ _
        have hbraceInPreC : '\x7b' ∈ preC := by
          have h1 : preC = route.take c := by
            rw [hrouteC, ← hlenC]
            exact (List.take_left _ _).symm
          rw [h1, hroute0, List.take_append_eq_append_take]
          refine List.mem_append.2 (Or.inr ?_)
          cases hcc : c - pre0.length with
          | zero => omega
          | succ m =>
            rw [List.take_succ_cons]
            exact List.mem_cons_self _ _
        have hcnt0 : pre0.count '\x7b' = 0 := List.count_eq_zero.2 hnot0
        have hcntCap : capGroup.count '\x7b' = 0 := by decide
        have hcntC : 0 < preC.count '\x7b' := List.count_pos_iff.2 hbraceInPreC
        have hcntRoute : route.count '\x7b' = preC.count '\x7b' + sufC.count '\x7b' := by
          rw [hrouteC, List.count_append, List.count_cons]
          simp
        have hnewcnt : (pre0 ++ capGroup ++ sufC).count '\x7b' < f := by
          rw [List.count_append, List.count_append, hcnt0, hcntCap]
          omega
        have hpos2 : listIndex '\x7b' (pre0 ++ capGroup ++ sufC) ≠ some 0 := by
          rw [hq]
          simp only [List.cons_append]
          rw [listIndex_cons_of_ne _ _ _ hqne]
          intro hsome
          cases listIndex '\x7b' (qs ++ capGroup ++ sufC) <;> simp at hsome
        have hdecomp2 : pre0 ++ capGroup ++ sufC = (pre0 ++ capGroup ++ w) ++ y := by
          rw [hwEq]
          simp [List.append_assoc]
        simp only [compileLoop, ho, hc, if_neg hcase, htake, hdropC]
        exact ih _ (pre0 ++ capGroup ++ w) y _ hdecomp2 hmy hny hpos2 hnewcnt

/-- C8 as amended: a template containing an opening brace with no
closing brace anywhere after it makes compilation fail — with the
`malformed route` panic, or with the slice panic when the first closing
brace precedes the first opening brace — provided the template's first
opening brace is at a strictly positive index (an unmatched brace at
index 0 is left alone by the loop condition `open > 0` and compiles, the
counterexample's quirk); and any entry whose template fails to compile
aborts the whole route-table compilation (build time, before any
request is served).  The last conjuncts check the two panic shapes on a
template with a matched placeholder before a trailing unmatched brace
and on one whose closing brace precedes its opening brace. -/
theorem C8_malformed_template (route a b : List Char)
    (hdecomp : route = a ++ '\x7b' :: b) (hnob : '\x7d' ∉ b)
    (hpos : listIndex '\x7b' route ≠ some 0) :
    (compilePath route = .error "malformed route" ∨
     compilePath route = .error "slice bounds out of range")
    ∧ (∀ (routes : List (String × PathHandler)) (e : String),
        (∃ mp ∈ routes, compilePath mp.2.Path = .error e) →
        ∃ msg, CompileRoutes routes = .error msg)
    ∧ (compilePath "widget/\x7bid\x7d/part/\x7bpartId".data = .error "malformed route")
    ∧ (compilePath "a\x7db\x7bc".data = .error "slice bounds out of range") := by
  refine ⟨?_, ?_, by rfl, by rfl⟩
  · have hny : '\x7d' ∉ '\x7b' :: b := by
      intro hm
      rcases List.mem_cons.1 hm with h | h
      · exact absurd h (by decide)
      · exact hnob h
    simp only [compilePath]
    exact compileLoop_unmatched (route.count '\x7b' + 1) route a ('\x7b' :: b) []
      hdecomp (List.mem_cons_self _ _) hny hpos (by omega)
  · intro routes e hex
    induction routes with
    | nil =>
      rcases hex with ⟨mp, hmem, _⟩
      exact absurd hmem (List.not_mem_nil mp)
    | cons r rest ih =>
      rcases hex with ⟨mp, hmem, herr⟩
      cases hr : compilePath r.2.Path with
      | error e' => exact ⟨e', by simp [CompileRoutes, hr]⟩
      | ok pr =>
        have hmp : mp ∈ rest := by
          rcases List.mem_cons.1 hmem with rfl | h
          · rw [hr] at herr
            exact absurd herr (by simp)
          · exact h
        rcases ih ⟨mp, hmp, herr⟩ with ⟨msg, hmsg⟩
        refine ⟨msg, ?_⟩
        simp [CompileRoutes, hr, hmsg]

/-- Witness for C8 as amended: the template `widget/(id` carries an
opening brace with no closing brace after it, at a positive index, so
compilation ends in one of the two panics. -/
theorem C8_malformed_template_witness :
    compilePath "widget/\x7bid".data = .error "malformed route" ∨
    compilePath "widget/\x7bid".data = .error "slice bounds out of range" :=
  (C8_malformed_template "widget/\x7bid".data "widget/".data "id".data (by rfl)
    (by decide) (by decide)).1

/-- Versioned route used to witness C10. -/
def c10Routes : List Route :=
  [{ Version := 1, Method := "GET", Path := "foo".data, Handler := .base 7,
     RequiredPrivLevel := 0, Authenticated := false, Middlewares := none,
     ID := 10, CanBypassToPerl := false }]

/-- Raw route used to witness C10. -/
def c10Raw : List RawRoute :=
  [{ Method := "GET", Path := "health".data, Handler := .base 8,
     RequiredPrivLevel := 0, Authenticated := false, Middlewares := none }]

/-- Route map built from `c10Routes` and `c10Raw`. -/
def c10RouteMap : List (String × PathHandler) × List ℚ :=
  CreateRouteMap c10Routes c10Raw [] [] (.base 0) ⟨"s"⟩ 0

/-- Compiled table built from `c10RouteMap`. -/
def c10Table : List (String × CompiledRoute) :=
  (CompileRoutes c10RouteMap.1).toOption.getD []

/-- C10: compiled patterns are not anchored at the end of the path, and
raw-route patterns are not anchored at the start either.  The versioned
route mounted at `^api/1/foo` also matches and dispatches the request
path `api/1/foobar`, which its template does not describe; the raw route
at literal path `health` matches and dispatches `zzhealthzz`, which
merely contains it as a substring. -/
theorem C10_unanchored_matching :
    (CompileRoutes c10RouteMap.1 = .ok c10Table)
    ∧ (Handler c10Table c10RouteMap.2 ["s"] false "GET" "/api/1/foobar".data =
        .matched (use (.base 7) (getDefaultMiddleware "s" 60)) [])
    ∧ ¬ ("api/1/foobar".data = "api/1/foo".data)
    ∧ (Handler c10Table c10RouteMap.2 ["s"] false "GET" "/zzhealthzz".data =
        .matched (use (.base 8) (getDefaultMiddleware "s" 60)) [])
    ∧ ¬ ("zzhealthzz".data = "health".data) :=
  ⟨rfl, rfl, by decide, rfl, by decide⟩

/-- Modelled from the spec: a path template as the spec describes it —
alternating literal text and `(name)` placeholders in braces, followed by
a final literal — represented as a list of (literal, placeholder-name)
sections plus the trailing literal.  `renderTemplate` prints the
template source text. -/
def renderTemplate : List (List Char × List Char) → List Char → List Char
  | [], fin => fin
  | (lit, name) :: rest, fin => lit ++ '\x7b' :: (name ++ '\x7d' :: renderTemplate rest fin)

/-- Modelled from the spec: the pattern the spec promises — the template
with every placeholder replaced by one single-segment wildcard capture,
literals untouched. -/
def renderPattern : List (List Char × List Char) → List Char → List Char
  | [], fin => fin
  | (lit, _) :: rest, fin => lit ++ capGroup ++ renderPattern rest fin

/-- Modelled from the spec: the ordered list of placeholder names of a
template. -/
def templateParams (pairs : List (List Char × List Char)) : List (List Char) :=
  pairs.map Prod.snd

/-- Text containing neither brace, the well-formedness condition on the
literal and name sections of a template. -/
def braceFree (l : List Char) : Prop := '\x7b' ∉ l ∧ '\x7d' ∉ l

instance (l : List Char) : Decidable (braceFree l) := by
  unfold braceFree
  infer_instance

theorem listIndex_eq_none_of_not_mem (c : Char) (l : List Char) (h : c ∉ l) :
    listIndex c l = none := by
  induction l with
  | nil => rfl
  | cons x xs ih =>
    have hxc : ¬ x = c := fun he => h (he ▸ List.mem_cons_self x xs)
    simp only [listIndex, if_neg hxc,
      ih (fun hm => h (List.mem_cons_of_mem x hm)), Option.map_none']

theorem listIndex_append_cons (c : Char) (a b : List Char) (h : c ∉ a) :
    listIndex c (a ++ c :: b) = some a.length := by
  induction a with
  | nil => simp [listIndex]
  | cons x xs ih =>
    have hxc : ¬ x = c := fun he => h (he ▸ List.mem_cons_self x xs)
    simp only [List.cons_append, listIndex, if_neg hxc, List.length_cons, List.append_eq]
    rw [ih (fun hm => h (List.mem_cons_of_mem x hm))]
    rfl

theorem count_renderTemplate (pairs : List (List Char × List Char)) (fin : List Char)
    (hfin : braceFree fin) (hpairs : ∀ p ∈ pairs, braceFree p.1 ∧ braceFree p.2) :
    (renderTemplate pairs fin).count '\x7b' = pairs.length := by
  induction pairs with
  | nil =>
    simp only [renderTemplate, List.length_nil]
    exact List.count_eq_zero.2 hfin.1
  | cons p rest ih =>
    obtain ⟨l, n⟩ := p
    have hp := hpairs (l, n) (List.mem_cons_self _ _)
    have hrest : ∀ q ∈ rest, braceFree q.1 ∧ braceFree q.2 :=
      fun q hq => hpairs q (List.mem_cons_of_mem _ hq)
    simp only [renderTemplate, List.count_append, List.count_cons,
      List.count_eq_zero.2 hp.1.1, List.count_eq_zero.2 hp.2.1, ih hrest, List.length_cons]
    simp

/-- Main compilation lemma: on a route string made of a brace-free
prefix followed by a rendered well-formed template, the Go loop consumes
one placeholder per iteration, substitutes the capture group, and
appends the placeholder name, producing exactly the spec's pattern and
the spec's ordered name list. -/
theorem compileLoop_render (pairs : List (List Char × List Char)) :
    ∀ (fin pre : List Char) (params : List (List Char)) (fuel : Nat),
    pairs.length + 1 ≤ fuel →
    braceFree pre → braceFree fin →
    (∀ p ∈ pairs, braceFree p.1 ∧ braceFree p.2) →
    (pairs = [] ∨ pre ≠ []) →
    compileLoop fuel (pre ++ renderTemplate pairs fin) params =
      .ok (pre ++ renderPattern pairs fin, params ++ templateParams pairs) := by
  induction pairs with
  | nil =>
    intro fin pre params fuel hfuel hpre hfin _ _
    obtain ⟨f, rfl⟩ : ∃ f, fuel = f + 1 := ⟨fuel - 1, by omega⟩
    have hnone : listIndex '\x7b' (pre ++ fin) = none := by
      apply listIndex_eq_none_of_not_mem
      intro hmem
      rcases List.mem_append.1 hmem with h | h
      · exact hpre.1 h
      · exact hfin.1 h
    simp [compileLoop, renderTemplate, hnone, renderPattern, templateParams]
  | cons p rest ih =>
    intro fin pre params fuel hfuel hpre hfin hpairs hne
    obtain ⟨l, n⟩ := p
    obtain ⟨f, rfl⟩ : ∃ f, fuel = f + 1 := ⟨fuel - 1, by omega⟩
    have hprene : pre ≠ [] := by
      rcases hne with h | h
      · exact absurd h (List.cons_ne_nil _ _)
      · exact h
    have hp := hpairs (l, n) (List.mem_cons_self _ _)
    have hrest : ∀ q ∈ rest, braceFree q.1 ∧ braceFree q.2 :=
      fun q hq => hpairs q (List.mem_cons_of_mem _ hq)
    have hpre1 : braceFree (pre ++ l) := by
      constructor
      · intro hm
        rcases List.mem_append.1 hm with h | h
        · exact hpre.1 h
        · exact hp.1.1 h
      · intro hm
        rcases List.mem_append.1 hm with h | h
        · exact hpre.2 h
        · exact hp.1.2 h
    obtain ⟨k, hk⟩ : ∃ k, (pre ++ l).length = k + 1 := by
      cases hpq : pre ++ l with
      | nil => exact absurd (List.append_eq_nil.1 hpq).1 hprene
      | cons a t => exact ⟨t.length, by simp [hpq]⟩
    have hk' : pre.length + l.length = k + 1 := by simpa using hk
    have route_eq : pre ++ renderTemplate ((l, n) :: rest) fin =
        (pre ++ l) ++ '\x7b' :: (n ++ '\x7d' :: renderTemplate rest fin) := by
      simp [renderTemplate]
    have hoIdx : listIndex '\x7b' (pre ++ renderTemplate ((l, n) :: rest) fin) =
        some (k + 1) := by
      rw [route_eq, listIndex_append_cons _ _ _ hpre1.1, hk]
    have route_eq2 : pre ++ renderTemplate ((l, n) :: rest) fin =
        ((pre ++ l) ++ '\x7b' :: n) ++ '\x7d' :: renderTemplate rest fin := by
      rw [route_eq]
      simp
    have hnotr : ('\x7d' : Char) ∉ (pre ++ l) ++ '\x7b' :: n := by
      intro hm
      rcases List.mem_append.1 hm with h | h
      · exact hpre1.2 h
      · rcases List.mem_cons.1 h with h1 | h1
        · exact absurd h1 (by decide)
        · exact hp.2.2 h1
    have hcIdx : listIndex '\x7d' (pre ++ renderTemplate ((l, n) :: rest) fin) =
        some (k + 1 + 1 + n.length) := by
      rw [route_eq2, listIndex_append_cons _ _ _ hnotr]
      have : ((pre ++ l) ++ '\x7b' :: n).length = k + 1 + 1 + n.length := by
        simp [List.length_append]
        omega
      rw [this]
    have hcond : ¬ (k + 1 + 1 + n.length < k + 2) := by omega
    have hdrop1 : (pre ++ renderTemplate ((l, n) :: rest) fin).drop (k + 2) =
        n ++ '\x7d' :: renderTemplate rest fin := by
      have he : pre ++ renderTemplate ((l, n) :: rest) fin =
          ((pre ++ l) ++ ['\x7b']) ++ (n ++ '\x7d' :: renderTemplate rest fin) := by
        rw [route_eq]
        simp
      have hlen : ((pre ++ l) ++ ['\x7b']).length = k + 2 := by
        simp [List.length_append]
        omega
      rw [he, ← hlen]
      exact List.drop_left _ _
    have htake1 : (n ++ '\x7d' :: renderTemplate rest fin).take (k + 1 + 1 + n.length - (k + 2)) =
        n := by
      have h1 : k + 1 + 1 + n.length - (k + 2) = n.length := by omega
      rw [h1]
      exact List.take_left _ _
    have htake2 : (pre ++ renderTemplate ((l, n) :: rest) fin).take (k + 1) = pre ++ l := by
      rw [route_eq, ← hk]
      exact List.take_left _ _
    have hdrop2 : (pre ++ renderTemplate ((l, n) :: rest) fin).drop (k + 1 + 1 + n.length + 1) =
        renderTemplate rest fin := by
      have he : pre ++ renderTemplate ((l, n) :: rest) fin =
          ((pre ++ l) ++ '\x7b' :: (n ++ ['\x7d'])) ++ renderTemplate rest fin := by
        rw [route_eq]
        simp
      have hlen : ((pre ++ l) ++ '\x7b' :: (n ++ ['\x7d'])).length = k + 1 + 1 + n.length + 1 := by
        simp [List.length_append]
        omega
      rw [he, ← hlen]
      exact List.drop_left _ _
    have hcgbf : braceFree capGroup := by decide
    have hpre2 : braceFree ((pre ++ l) ++ capGroup) := by
      constructor
      · intro hm
        rcases List.mem_append.1 hm with h | h
        · exact hpre1.1 h
        · exact hcgbf.1 h
      · intro hm
        rcases List.mem_append.1 hm with h | h
        · exact hpre1.2 h
        · exact hcgbf.2 h
    have hne2 : (pre ++ l) ++ capGroup ≠ [] := by
      intro hm
      have := (List.append_eq_nil.1 hm).2
      revert this
      decide
    have hfuel2 : rest.length + 1 ≤ f := by
      have h2 := hfuel
      simp only [List.length_cons] at h2
      omega
    have hih := ih fin ((pre ++ l) ++ capGroup) (params ++ [n]) f
      hfuel2 hpre2 hfin hrest (Or.inr hne2)
    simp only [compileLoop, hoIdx, hcIdx, if_neg hcond, hdrop1, htake1, htake2, hdrop2]
    simp only [List.append_assoc] at hih ⊢
    rw [hih]
    simp [renderPattern, templateParams, List.append_assoc]

/-- C7: compiling a well-formed template (brace-free literals and names,
and a leading literal before the first placeholder, as every mounted
path has thanks to the api-version prefix) yields the pattern with one
single-segment capture per placeholder and the ordered placeholder-name
list; the dispatch engine binds names to captures positionally; and on
the claim's concrete template `widget/(id)/part/(partId)` matched
against `widget/42/part/7` the bound parameters are id = 42 and
partId = 7, end to end through `CompileRoutes` and `Handler`. -/
theorem C7_parameter_extraction (pairs : List (List Char × List Char)) (fin : List Char)
    (hfin : braceFree fin)
    (hpairs : ∀ p ∈ pairs, braceFree p.1 ∧ braceFree p.2)
    (hhead : pairs = [] ∨ (pairs.headD ([], [])).1 ≠ []) :
    (compilePath (renderTemplate pairs fin) =
      .ok (renderPattern pairs fin, templateParams pairs))
    ∧ (∀ (names caps : List (List Char)), bindParams names caps = names.zip caps)
    ∧ (CompileRoutes [("GET", PathHandler.mk "widget/{id}/part/{partId}".data (.base 5))] =
        .ok [("GET", CompiledRoute.mk (.base 5) "widget/([^/]+)/part/([^/]+)".data
          ["id".data, "partId".data])])
    ∧ (Handler [("GET", CompiledRoute.mk (.base 5) "widget/([^/]+)/part/([^/]+)".data
          ["id".data, "partId".data])] [] ["s"] false "GET" "/widget/42/part/7".data =
        .matched (.base 5) [("id".data, "42".data), ("partId".data, "7".data)]) := by
  refine ⟨?_, fun names caps => rfl, by rfl, by rfl⟩
  rw [compilePath, count_renderTemplate pairs fin hfin hpairs]
  cases pairs with
  | nil =>
    have h := compileLoop_render [] fin [] [] 1 (by simp)
      ⟨List.not_mem_nil _, List.not_mem_nil _⟩ hfin (by simp) (Or.inl rfl)
    simpa [renderTemplate, renderPattern, templateParams] using h
  | cons p rest =>
    obtain ⟨l, n⟩ := p
    have hl : l ≠ [] := by
      rcases hhead with h | h
      · exact absurd h (List.cons_ne_nil _ _)
      · simpa using h
    have hp := hpairs (l, n) (List.mem_cons_self _ _)
    have hrest : ∀ q ∈ rest, braceFree q.1 ∧ braceFree q.2 :=
      fun q hq => hpairs q (List.mem_cons_of_mem _ hq)
    have hpairs' : ∀ q ∈ ((([] : List Char), n) :: rest), braceFree q.1 ∧ braceFree q.2 := by
      intro q hq
      rcases List.mem_cons.1 hq with rfl | hq
      · exact ⟨⟨List.not_mem_nil _, List.not_mem_nil _⟩, hp.2⟩
      · exact hrest q hq
    have hrt : renderTemplate ((l, n) :: rest) fin =
        l ++ renderTemplate (([], n) :: rest) fin := by
      simp [renderTemplate]
    have h := compileLoop_render ((([] : List Char), n) :: rest) fin l []
      (((l, n) :: rest).length + 1) (by simp) hp.1 hfin hpairs' (Or.inr hl)
    rw [hrt, h]
    simp [renderPattern, templateParams]

/-- Template sections rendering to `widget/(id)/part/(partId)`, used to
witness C7. -/
def c7Pairs : List (List Char × List Char) :=
  [("widget/".data, "id".data), ("/part/".data, "partId".data)]

/-- Witness for C7: the concrete widget template compiles to the
two-capture pattern with ordered names id, partId. -/
theorem C7_parameter_extraction_witness :
    compilePath (renderTemplate c7Pairs []) =
      .ok (renderPattern c7Pairs [], templateParams c7Pairs) :=
  (C7_parameter_extraction c7Pairs [] (by decide) (by decide) (by decide)).1

end TrafficRouting
